import Mathlib

/-!
Shallow embedding of the pi-dashboard-api server (src/server.js, the
axios/express variant starting at the second file section, lines 95-347)
together with proofs about the claims of the specification.

Modelling conventions:
  - JSON values stored in the notes file are modelled by the inductive
    type JVal (strings and objects with an association list of fields).
  - The notes root object is a function from composite keys to optional
    buckets, mirroring a JS object used as a dictionary.
  - JS falsiness of strings (empty string and undefined) and of JSON
    values is modelled explicitly.
  - The two pagination while-loops are modelled with explicit fuel; a
    result of none means the loop did not finish within the given fuel.
  - Upstream HTTP services are modelled as functions from the startAt
    offset to the page the server would receive.
-/

namespace PiDashboard

/-! ### JS string helpers -/

/-- Whitespace characters removed by the JS String trim method
(the common ones: space, tab, line feed, carriage return, vertical tab,
form feed, no-break space, BOM). -/
def isJsSpace (c : Char) : Bool :=
  c == ' ' || c == '\t' || c == '\n' || c == '\r' || c == '\x0b' ||
  c == '\x0c' || c == ' ' || c == '﻿'

/-- JS String.prototype.trim: drop leading and trailing whitespace. -/
def jsTrim (s : String) : String :=
  String.mk (((s.toList.dropWhile isJsSpace).reverse.dropWhile isJsSpace).reverse)

/-- Falsiness of an optional string request parameter: an absent field
(undefined) and the empty string are falsy in JS. -/
def jsFalsyStr : Option String → Bool
  | none => true
  | some s => s == ""

/-! ### Notes storage (server.js lines 122-138, 274-297)

The notes file holds one JSON object mapping composite keys
projectKey|||sprintName to buckets.  In this server variant a bucket is a
flat JSON object from issue keys to note text. -/

/-- JSON values as far as the notes store needs them: strings and objects. -/
inductive JVal where
  | str (s : String)
  | obj (fields : List (String × JVal))

/-- JS truthiness of a JSON value: the empty string is falsy, every
object (even the empty one) is truthy. -/
def jsTruthy : JVal → Bool
  | .str s => !(s == "")
  | .obj _ => true

/-- Property lookup on a JSON object (first binding wins; parsed JSON
objects have unique keys). -/
def lookupA : List (String × JVal) → String → Option JVal
  | [], _ => none
  | p :: rest, k => if p.1 == k then some p.2 else lookupA rest k

/-- Property assignment obj[k] = v: replace the existing binding in
place, else append a new one (JS object semantics). -/
def setAssoc (k : String) (v : JVal) : List (String × JVal) → List (String × JVal)
  | [] => [(k, v)]
  | p :: rest => if p.1 == k then (k, v) :: rest else p :: setAssoc k v rest

/-- The JS delete operator on an object key: remove the binding (parsed
JSON objects have unique keys, so removing every binding with that key
is the same operation). -/
def delA (fs : List (String × JVal)) (k : String) : List (String × JVal) :=
  fs.filter (fun p => !(p.1 == k))

/-- Property lookup on a JSON value; lookups on non-objects give nothing. -/
def objLookup : JVal → String → Option JVal
  | .obj fs, k => lookupA fs k
  | _, _ => none

/-- obj[k] = v on a JSON value; assignment on a primitive is a silent
no-op in non-strict JS. -/
def objSet : JVal → String → JVal → JVal
  | .obj fs, k, v => .obj (setAssoc k v fs)
  | x, _, _ => x

/-- delete obj[k] on a JSON value; a no-op on primitives. -/
def objDelete : JVal → String → JVal
  | .obj fs, k => .obj (delA fs k)
  | x, _ => x

/-- The JS expression x || default-empty-object, as used in
all[sprintKey] || two places in server.js (lines 278 and 289). -/
def jsOrJ : Option JVal → JVal
  | some v => if jsTruthy v then v else .obj []
  | none => .obj []

/-- The parsed notes file: one JSON object from composite keys to buckets. -/
def Root : Type := String → Option JVal

/-- server.js line 136: composite bucket key with the triple-pipe separator. -/
def sprintKey (projectKey sprintName : String) : String :=
  projectKey ++ "|||" ++ sprintName

/-- server.js lines 274-280, GET /api/notes: the response body is the
JSON object with a single notes field holding the raw bucket (or an
empty object when the bucket is absent or falsy). -/
def getNotes (root : Root) (project sprint : String) : JVal :=
  JVal.obj [("notes", jsOrJ (root (sprintKey project sprint)))]

/-- server.js lines 287-295, the body of PUT /api/notes after parameter
validation: load the root, materialise the bucket, delete the issue key
when the text trims to the empty string, otherwise store the text, and
persist the whole root.  The stored value is the original text (in the
store branch the text is necessarily present, since an absent text
coerces to the empty string and takes the delete branch). -/
def putNote (root : Root) (projectKey sprintName issueKey : String)
    (text : Option String) : Root :=
  let sk := sprintKey projectKey sprintName
  let bucket := jsOrJ (root sk)
  let bucket' :=
    if jsTrim (text.getD "") == "" then objDelete bucket issueKey
    else objSet bucket issueKey (JVal.str (text.getD ""))
  fun k => if k == sk then some bucket' else root k

/-- Result of the PUT /api/notes handler: HTTP status, error body,
resulting persisted root, and whether saveNotesFile ran. -/
structure NotesPutRes where
  status : Nat
  error : Option String
  root : Root
  saved : Bool

/-- server.js lines 282-297, PUT /api/notes: reject with 400 when
projectKey, sprintName or issueKey is missing (falsy), before any file
access; otherwise perform the write. -/
def putNotesEndpoint (root : Root)
    (projectKey sprintName issueKey text : Option String) : NotesPutRes :=
  if jsFalsyStr projectKey || jsFalsyStr sprintName || jsFalsyStr issueKey then
    ⟨400, some "Missing projectKey, sprintName, or issueKey", root, false⟩
  else
    ⟨200, none,
      putNote root (projectKey.getD "") (sprintName.getD "") (issueKey.getD "") text,
      true⟩

/-- Result of the GET /api/notes handler. -/
structure NotesGetRes where
  status : Nat
  error : Option String
  body : Option JVal
  readStore : Bool

/-- server.js lines 274-280, GET /api/notes: reject with 400 when
project or sprint is missing, before the notes file is read. -/
def getNotesEndpoint (root : Root) (project sprint : Option String) : NotesGetRes :=
  if jsFalsyStr project || jsFalsyStr sprint then
    ⟨400, some "Missing project or sprint", none, false⟩
  else
    ⟨200, none, some (getNotes root (project.getD "") (sprint.getD "")), true⟩

/-- Modelled from the spec: the normalized read of a legacy flat bucket
containing the single note ISSUE-1, hello, as the specification claims
the store returns it: a notes field holding that map next to an empty
blockers field.  Used only to compare the code against the claim. -/
def specNormalizedReadC2 : JVal :=
  JVal.obj [("notes", JVal.obj [("ISSUE-1", JVal.str "hello")]),
            ("blockers", JVal.obj [])]

/-- A stored root holding one legacy flat bucket, as in the claim. -/
def legacyRoot : Root := fun k =>
  if k == sprintKey "P" "S" then some (JVal.obj [("ISSUE-1", JVal.str "hello")])
  else none

/-- A concrete root with one two-note bucket, used to witness the
write-path theorems on concrete inputs. -/
def rootW : Root := fun k =>
  if k == sprintKey "P" "S" then
    some (JVal.obj [("I1", JVal.str "old"), ("I2", JVal.str "keep")])
  else none

/-! ### Sprint aggregation (server.js lines 184-271) -/

/-- A sprint as returned by the board sprint endpoint. -/
structure RawSprint where
  id : Nat
  name : String
  state : String
deriving DecidableEq

/-- A scrum board (after the type filter of lines 204-207). -/
structure Board where
  id : Nat
  name : String
deriving DecidableEq

/-- Sprint identifiers in the response: upstream numeric ids, or the
synthetic derived:name strings of the fallback path. -/
inductive JId where
  | num (n : Nat)
  | str (s : String)
deriving DecidableEq

/-- A sprint entry of the response list (line 216 and line 263). -/
structure Sprint where
  id : JId
  name : String
  state : String
  boardId : Option Nat
  boardName : String
deriving DecidableEq

/-- server.js line 216: the entry recorded the first time a sprint id is seen. -/
def mkFromRaw (b : Board) (s : RawSprint) : Sprint :=
  ⟨JId.num s.id, s.name, s.state, some b.id, b.name⟩

/-- server.js lines 213-218 inner loop: walk the sprint list of one
board and record each sprint whose id was not seen before. -/
def addSprints (b : Board) : List RawSprint → List Sprint → List Sprint
  | [], acc => acc
  | s :: rest, acc =>
    addSprints b rest
      (if acc.any (fun t => t.id == JId.num s.id) then acc
       else acc ++ [mkFromRaw b s])

/-- server.js lines 211-227 outer loop: fold the per-board sprint lists
into the seen map, in board order.  The JS Map preserves insertion
order, so the accumulated list is exactly Array.from of the map values. -/
def collectSeen : List (Board × List RawSprint) → List Sprint → List Sprint
  | [], acc => acc
  | p :: rest, acc => collectSeen rest (addSprints p.1 p.2 acc)

/-- The first (board, sprint) pair in traversal order whose sprint
carries the given id. -/
def firstOcc : List (Board × List RawSprint) → Nat → Option (Board × RawSprint)
  | [], _ => none
  | p :: rest, i =>
    match p.2.find? (fun s => s.id == i) with
    | some s => some (p.1, s)
    | none => firstOcc rest i

/-- Lexicographic strictly-less on character lists, comparing code
points, the model of JS string comparison (both the default sort
comparator and localeCompare, taken in code order). -/
def strLtB : List Char → List Char → Bool
  | [], [] => false
  | [], _ :: _ => true
  | _ :: _, [] => false
  | a :: as, b :: bs =>
    if a.toNat < b.toNat then true
    else if b.toNat < a.toNat then false
    else strLtB as bs

/-- Non-strict string comparison derived from the strict one. -/
def strLeB (a b : String) : Bool := !(strLtB b.toList a.toList)

/-- The comparator of server.js line 229: ascending on the name field
(localeCompare, modelled as code-point comparison). -/
def nameLe (a b : Sprint) : Prop := strLeB a.name b.name = true

instance : DecidableRel nameLe := fun a b =>
  (inferInstance : Decidable (strLeB a.name b.name = true))

/-- server.js line 229: sort the deduplicated sprint list by name. -/
def sortByName (l : List Sprint) : List Sprint := List.insertionSort nameLe l

/-- The deduplicated and name-sorted board-discovered sprint list of line 229. -/
def collectSeenList (ps : List (Board × List RawSprint)) : List Sprint :=
  sortByName (collectSeen ps [])

/-- A value found inside the sprint custom field of an issue: either a
legacy encoded string or an object carrying an optional name property. -/
inductive SprintVal where
  | strV (s : String)
  | objV (name : Option String)
deriving DecidableEq

/-- JS truthiness of a sprint field value. -/
def jsTruthySV : SprintVal → Bool
  | .strV s => !(s == "")
  | .objV _ => true

/-- The sprint custom field customfield_10020 of an issue: absent, a
single value, or an array of values. -/
inductive SFieldVal where
  | absent
  | single (v : SprintVal)
  | arr (vs : List SprintVal)
deriving DecidableEq

/-- An issue as the fallback scan sees it: only its sprint field matters. -/
structure Issue where
  sprintField : SFieldVal
deriving DecidableEq

/-- server.js lines 247-249: skip falsy fields, wrap a non-array value
into a one-element array. -/
def issueVals (iss : Issue) : List SprintVal :=
  match iss.sprintField with
  | .absent => []
  | .single v => if jsTruthySV v then [v] else []
  | .arr vs => vs

/-- Does the character list start with the literal name= token. -/
def startsWithNameEq : List Char → Bool
  | 'n' :: 'a' :: 'm' :: 'e' :: '=' :: _ => true
  | _ => false

/-- The regex name=([^,]+) applied to a character list: scan left to
right for an occurrence of name= followed by at least one non-comma
character, and capture the maximal run of non-comma characters. -/
def scanNameEq : List Char → Option (List Char)
  | [] => none
  | c :: rest =>
    if startsWithNameEq (c :: rest) then
      let cap := ((c :: rest).drop 5).takeWhile (fun ch => !(ch == ','))
      if cap.isEmpty then scanNameEq rest else some cap
    else scanNameEq rest

/-- server.js line 252: first match of the regex name=([^,]+) on a string. -/
def regexNameEq (s : String) : Option String :=
  (scanNameEq s.toList).map (fun l => String.mk l)

/-- server.js lines 250-257: extract a sprint name from one sprint field
value.  Strings go through the regex (the captured group is added only
when truthy); objects contribute their name property when it is truthy. -/
def extractFromVal : SprintVal → Option String
  | .strV s =>
    match regexNameEq s with
    | some cap => if cap == "" then none else some cap
    | none => none
  | .objV (some n) => if n == "" then none else some n
  | .objV none => none

/-- All sprint names extracted from the scanned issues, in scan order
(possibly with repetitions). -/
def extractAll (issues : List Issue) : List String :=
  (issues.map (fun iss => (issueVals iss).filterMap extractFromVal)).flatten

/-- The JS Set of line 236: keep the first occurrence of each name,
preserving insertion order. -/
def addNames : List String → List String → List String
  | acc, [] => acc
  | acc, n :: rest => addNames (if n ∈ acc then acc else acc ++ [n]) rest

/-- Array.from of the names Set: the distinct extracted names in first
occurrence order. -/
def dedupFirst (l : List String) : List String := addNames [] l

/-- server.js line 263: the derived sprint synthesized for one name. -/
def derivedMk (n : String) : Sprint :=
  ⟨JId.str ("derived:" ++ n), n, "unknown", none, "derived-from-issues"⟩

/-- server.js line 263: distinct names, sorted with the default JS sort
(lexicographic string comparison), each mapped to a derived sprint. -/
def deriveSprints (issues : List Issue) : List Sprint :=
  (List.insertionSort (fun a b : String => strLeB a b = true)
    (dedupFirst (extractAll issues))).map derivedMk

/-- server.js lines 229-264: the final sprint list of GET /api/sprints,
given the discovered per-board sprint lists and the issues the fallback
scan would page through: the deduplicated name-sorted list, or, when it
is empty, the derived list. -/
def sprintsEndpointList (ps : List (Board × List RawSprint)) (issues : List Issue) :
    List Sprint :=
  let list := collectSeenList ps
  if list.isEmpty then deriveSprints issues else list

/-- Modelled from the spec: the rank a sprint state takes in the claimed
ordering (active, future, closed, unknown, everything else last).  Used
only to state the claimed sort order; server.js has no such ranking. -/
def specStateRank (s : String) : Nat :=
  if s == "active" then 0
  else if s == "future" then 1
  else if s == "closed" then 2
  else if s == "unknown" then 3
  else 9

/-- Modelled from the spec: the claimed comparison, state rank first,
name ascending within equal ranks. -/
def specLeB (a b : Sprint) : Bool :=
  specStateRank a.state < specStateRank b.state ||
    (specStateRank a.state == specStateRank b.state && decide (a.name ≤ b.name))

/-- Is a list ordered under a boolean relation (every element related to
every later element). -/
def pairwiseB (le : Sprint → Sprint → Bool) : List Sprint → Bool
  | [] => true
  | x :: rest => rest.all (le x) && pairwiseB le rest

/-- A one-board input whose sprints refute the claimed state ranking:
the closed sprint A sorts before the active sprint B. -/
def cexBoardsC1 : List (Board × List RawSprint) :=
  [(⟨1, "B1"⟩, [⟨10, "A", "closed"⟩, ⟨11, "B", "active"⟩])]

/-- Observer: the first entry of a sprint list carrying the given
upstream numeric id. -/
def findId : List Sprint → Nat → Option Sprint
  | [], _ => none
  | t :: rest, i => if t.id == JId.num i then some t else findId rest i

/-- Observer: how many entries of a sprint list carry the given
upstream numeric id. -/
def countId : List Sprint → Nat → Nat
  | [], _ => 0
  | t :: rest, i => (if t.id == JId.num i then 1 else 0) + countId rest i

/-- First-of-two on optional sprints (left biased choice). -/
def orO : Option Sprint → Option Sprint → Option Sprint
  | some v, _ => some v
  | none, b => b

/-- The issues of the fallback example of the spec: one legacy encoded
string value and one structured object value. -/
def issuesW : List Issue :=
  [⟨SFieldVal.single (SprintVal.strV "blah,name=Sprint 12,seq=5")⟩,
   ⟨SFieldVal.arr [SprintVal.objV (some "Sprint 7")]⟩]

/-- Two boards carrying the same sprint id, used to witness the
deduplication theorem. -/
def psW5 : List (Board × List RawSprint) :=
  [(⟨1, "B1"⟩, [⟨7, "S", "active"⟩]), (⟨2, "B2"⟩, [⟨7, "S", "active"⟩])]

/-! ### The generic agile page iterator (server.js lines 189-200) -/

/-- One upstream page as agilePaged sees it, with the discovered array
already resolved (the code accepts it under values, issues or sprints). -/
structure APage (α : Type) where
  values : List α
  total : Option Nat
  isLast : Bool

/-- The break condition of server.js line 196, evaluated after the page
was concatenated: isLast, running count reached the reported total (the
total defaults to the accumulated length when absent), an empty page, or
the hard cap. -/
def agileStop {α : Type} (u : Nat → APage α) (hL startAt : Nat) (out : List α) : Bool :=
  (u startAt).isLast ||
    decide (startAt + (u startAt).values.length ≥
      ((u startAt).total.getD (out ++ (u startAt).values).length)) ||
    (u startAt).values.isEmpty ||
    decide ((out ++ (u startAt).values).length ≥ hL)

/-- server.js lines 189-200: the agilePaged while-loop with explicit
fuel.  Each iteration fetches the page at startAt, concatenates it,
breaks on the line 196 condition, else advances startAt by the page
length.  none means the fuel ran out before the loop broke. -/
def agilePagedLoop {α : Type} (u : Nat → APage α) (hL : Nat) :
    Nat → Nat → List α → Option (List α)
  | 0, _, _ => none
  | fuel + 1, startAt, out =>
    if (u startAt).isLast ||
        decide (startAt + (u startAt).values.length ≥
          ((u startAt).total.getD (out ++ (u startAt).values).length)) ||
        (u startAt).values.isEmpty ||
        decide ((out ++ (u startAt).values).length ≥ hL) then
      some (out ++ (u startAt).values)
    else
      agilePagedLoop u hL fuel (startAt + (u startAt).values.length)
        (out ++ (u startAt).values)

/-- A concrete upstream used to witness the termination theorem. -/
def uW7 : Nat → APage String := fun _ => ⟨["a"], some 1, true⟩

/-- A concrete upstream used to witness the absent-total theorem: no
last flag, every page nonempty, no total on the first page. -/
def uW10 : Nat → APage String := fun n =>
  ⟨["x"], if n == 0 then none else some 100, false⟩

/-! ### The search relay loop (server.js lines 323-337) -/

/-- One upstream search response: the issues array and the reported
total (absent total models a response without the field; the JS
comparison against undefined is then false). -/
structure SPage (α : Type) where
  issues : List α
  total : Option Nat

/-- The JS comparison n >= total where total may be undefined: a
comparison against undefined is false. -/
def jsGeOpt (n : Nat) : Option Nat → Bool
  | some t => decide (n ≥ t)
  | none => false

/-- server.js lines 326-337: the POST /api/search pagination while-loop
with explicit fuel, also counting upstream calls.  It concatenates each
page and breaks only when startAt plus the page length reaches the
reported total; an empty page does not break the loop. -/
def searchLoop {α : Type} (u : Nat → SPage α) :
    Nat → Nat → List α → Nat → Option (List α × Nat)
  | 0, _, _, _ => none
  | fuel + 1, startAt, acc, calls =>
    let d := u startAt
    let acc' := acc ++ d.issues
    if jsGeOpt (startAt + d.issues.length) d.total then some (acc', calls + 1)
    else searchLoop u fuel (startAt + d.issues.length) acc' (calls + 1)

/-- Termination of the search loop from its initial state: some fuel
suffices for the loop to break. -/
def searchTerminates {α : Type} (u : Nat → SPage α) : Prop :=
  ∃ fuel, (searchLoop u fuel 0 [] 0).isSome = true

/-- An upstream that reports five issues in total but returns an empty
page at every offset. -/
def cexSearchU : Nat → SPage Unit := fun _ => ⟨[], some 5⟩

/-- Result of the POST /api/search handler: HTTP status, error body,
concatenated issues, and the number of upstream calls made. -/
structure SearchRes (α : Type) where
  status : Nat
  error : Option String
  issues : List α
  calls : Nat

/-- server.js lines 300-339, POST /api/search: reject with 400 when jql
is missing (falsy), before any upstream call; otherwise run the
pagination loop to completion. -/
def searchEndpoint {α : Type} (u : Nat → SPage α) (fuel : Nat) (jql : Option String) :
    Option (SearchRes α) :=
  if jsFalsyStr jql then some ⟨400, some "Missing jql", [], 0⟩
  else (searchLoop u fuel 0 [] 0).map (fun r => ⟨200, none, r.1, r.2⟩)

/-! ## Lemmas about the string comparator -/

theorem strLtB_asymm : ∀ (x y : List Char), strLtB x y = true → strLtB y x = false := by
  intro x
  induction x with
  | nil =>
    intro y h
    cases y with
    | nil => cases h
    | cons c cs => rfl
  | cons a as ih =>
    intro y h
    cases y with
    | nil => cases h
    | cons b bs =>
      simp only [strLtB] at h ⊢
      by_cases hab : a.toNat < b.toNat
      · simp [hab, show ¬ b.toNat < a.toNat by omega]
      · by_cases hba : b.toNat < a.toNat
        · simp [hab, hba] at h
        · simp only [hab, hba, if_false] at h
          simp [hab, hba, ih bs h]

theorem strLtB_false_trans :
    ∀ (x y z : List Char), strLtB x y = false → strLtB y z = false →
      strLtB x z = false := by
  intro x
  induction x with
  | nil =>
    intro y z h1 h2
    cases y with
    | nil =>
      cases z with
      | nil => rfl
      | cons c cs => cases h2
    | cons b bs => cases h1
  | cons a as ih =>
    intro y z h1 h2
    cases y with
    | nil =>
      cases z with
      | nil => rfl
      | cons c cs => cases h2
    | cons b bs =>
      cases z with
      | nil => rfl
      | cons c cs =>
        simp only [strLtB] at h1 h2 ⊢
        by_cases hab : a.toNat < b.toNat
        · simp [hab] at h1
        · by_cases hbc : b.toNat < c.toNat
          · simp [hbc] at h2
          · by_cases hba : b.toNat < a.toNat
            · by_cases hcb : c.toNat < b.toNat
              · simp [show ¬ a.toNat < c.toNat by omega, show c.toNat < a.toNat by omega]
              · simp [show ¬ a.toNat < c.toNat by omega, show c.toNat < a.toNat by omega]
            · by_cases hcb : c.toNat < b.toNat
              · simp [show ¬ a.toNat < c.toNat by omega, show c.toNat < a.toNat by omega]
              · simp only [hab, hba, if_false] at h1
                simp only [hbc, hcb, if_false] at h2
                simp [show ¬ a.toNat < c.toNat by omega, show ¬ c.toNat < a.toNat by omega,
                  ih bs cs h1 h2]

instance : IsTotal String (fun a b : String => strLeB a b = true) := by
  constructor
  intro a b
  cases h : strLtB b.toList a.toList with
  | false => exact Or.inl (by simp only [strLeB, h, Bool.not_false])
  | true => exact Or.inr (by simp only [strLeB, strLtB_asymm _ _ h, Bool.not_false])

instance : IsTrans String (fun a b : String => strLeB a b = true) := by
  constructor
  intro a b c h1 h2
  simp only [strLeB, Bool.not_eq_true'] at h1 h2 ⊢
  exact strLtB_false_trans c.toList b.toList a.toList h2 h1

instance : IsTotal Sprint nameLe := by
  constructor
  intro a b
  exact IsTotal.total (r := fun a b : String => strLeB a b = true) a.name b.name

instance : IsTrans Sprint nameLe := by
  constructor
  intro a b c h1 h2
  exact IsTrans.trans (r := fun a b : String => strLeB a b = true) _ _ _ h1 h2

/-! ## Lemmas about the notes store -/

theorem jsOrJ_some (v : JVal) (h : jsTruthy v = true) : jsOrJ (some v) = v := by
  simp [jsOrJ, h]

theorem jsTruthy_jsOrJ (x : Option JVal) : jsTruthy (jsOrJ x) = true := by
  cases x with
  | none => rfl
  | some v =>
    by_cases h : jsTruthy v = true
    · rw [jsOrJ_some v h]
      exact h
    · have e : jsOrJ (some v) = JVal.obj [] := by simp [jsOrJ, h]
      rw [e]
      rfl

theorem jsTruthy_objDelete (v : JVal) (k : String) (h : jsTruthy v = true) :
    jsTruthy (objDelete v k) = true := by
  cases v with
  | str s => simpa [objDelete] using h
  | obj fs => rfl

theorem jsTruthy_objSet (v : JVal) (k : String) (w : JVal) (h : jsTruthy v = true) :
    jsTruthy (objSet v k w) = true := by
  cases v with
  | str s => simpa [objSet] using h
  | obj fs => rfl

theorem lookupA_delA_self (fs : List (String × JVal)) (k : String) :
    lookupA (delA fs k) k = none := by
  induction fs with
  | nil => rfl
  | cons p rest ih =>
    by_cases h : p.1 = k
    · simpa [delA, List.filter_cons, h] using ih
    · simpa [delA, List.filter_cons, lookupA, h] using ih

theorem lookupA_delA_ne (fs : List (String × JVal)) (k j : String) (h : ¬ j = k) :
    lookupA (delA fs k) j = lookupA fs j := by
  have hkj : ¬ k = j := fun hc => h hc.symm
  induction fs with
  | nil => rfl
  | cons p rest ih =>
    by_cases hpk : p.1 = k
    · have hpj : ¬ p.1 = j := by
        rw [hpk]
        exact hkj
      simpa [delA, List.filter_cons, lookupA, hpk, hpj, h, hkj] using ih
    · by_cases hpj : p.1 = j
      · simp [delA, List.filter_cons, lookupA, hpk, hpj, h, hkj]
      · simpa [delA, List.filter_cons, lookupA, hpk, hpj, h, hkj] using ih

theorem lookupA_setAssoc_self (fs : List (String × JVal)) (k : String) (v : JVal) :
    lookupA (setAssoc k v fs) k = some v := by
  induction fs with
  | nil => simp [setAssoc, lookupA]
  | cons p rest ih =>
    by_cases h : p.1 = k
    · simp [setAssoc, lookupA, h]
    · simpa [setAssoc, lookupA, h] using ih

theorem lookupA_setAssoc_ne (fs : List (String × JVal)) (k : String) (v : JVal)
    (j : String) (h : ¬ j = k) :
    lookupA (setAssoc k v fs) j = lookupA fs j := by
  induction fs with
  | nil =>
    have : ¬ k = j := fun hc => h hc.symm
    simp [setAssoc, lookupA, this]
  | cons p rest ih =>
    have hkj : ¬ k = j := fun hc => h hc.symm
    by_cases hpk : p.1 = k
    · simp [setAssoc, lookupA, hpk, h, hkj]
    · by_cases hpj : p.1 = j
      · simp [setAssoc, lookupA, hpk, hpj, h, hkj]
      · simpa [setAssoc, lookupA, hpk, hpj, h, hkj] using ih

theorem objLookup_objDelete_self (v : JVal) (k : String) :
    objLookup (objDelete v k) k = none := by
  cases v with
  | str s => rfl
  | obj fs => simpa [objDelete, objLookup] using lookupA_delA_self fs k

theorem objLookup_objDelete_ne (v : JVal) (k j : String) (h : ¬ j = k) :
    objLookup (objDelete v k) j = objLookup v j := by
  cases v with
  | str s => rfl
  | obj fs => simpa [objDelete, objLookup] using lookupA_delA_ne fs k j h

theorem objLookup_objSet_ne (v : JVal) (k : String) (w : JVal) (j : String)
    (h : ¬ j = k) :
    objLookup (objSet v k w) j = objLookup v j := by
  cases v with
  | str s => rfl
  | obj fs => simpa [objSet, objLookup] using lookupA_setAssoc_ne fs k w j h

/-! ## Claim C2 -/

/-- Claim C2 counterexample: for the stored legacy flat bucket holding
ISSUE-1, hello, the GET /api/notes read returns the flat bucket under
the notes field only — not the claimed normalized shape with an empty
blockers side — and the next write persists the flat shape back, with
the new note added at the top level of the flat map. -/
theorem legacy_bucket_normalization_counterexample :
    getNotes legacyRoot "P" "S" =
      JVal.obj [("notes", JVal.obj [("ISSUE-1", JVal.str "hello")])] ∧
    ¬ getNotes legacyRoot "P" "S" = specNormalizedReadC2 ∧
    putNote legacyRoot "P" "S" "ISSUE-2" (some "x") (sprintKey "P" "S") =
      some (JVal.obj [("ISSUE-1", JVal.str "hello"), ("ISSUE-2", JVal.str "x")]) ∧
    ¬ putNote legacyRoot "P" "S" "ISSUE-2" (some "x") (sprintKey "P" "S") =
        some (JVal.obj [("notes", JVal.obj [("ISSUE-1", JVal.str "hello"),
                                            ("ISSUE-2", JVal.str "x")]),
                        ("blockers", JVal.obj [])]) := by
  have e1 : getNotes legacyRoot "P" "S" =
      JVal.obj [("notes", JVal.obj [("ISSUE-1", JVal.str "hello")])] := rfl
  have e2 : putNote legacyRoot "P" "S" "ISSUE-2" (some "x") (sprintKey "P" "S") =
      some (JVal.obj [("ISSUE-1", JVal.str "hello"), ("ISSUE-2", JVal.str "x")]) := rfl
  refine ⟨e1, ?_, e2, ?_⟩
  · rw [e1]
    simp [specNormalizedReadC2]
  · rw [e2]
    simp

/-- Claim C2 (amended): reading a stored legacy flat bucket returns it
verbatim under the notes field, with no blockers side and no
normalization; the next write persists the same flat shape with only
the written key changed, so no note is lost. -/
theorem legacy_bucket_read_flat (root : Root) (pk sn : String)
    (fs : List (String × JVal))
    (h : root (sprintKey pk sn) = some (JVal.obj fs)) (ik t : String)
    (ht : ¬ jsTrim t = "") :
    getNotes root pk sn = JVal.obj [("notes", JVal.obj fs)] ∧
    putNote root pk sn ik (some t) (sprintKey pk sn) =
      some (JVal.obj (setAssoc ik (JVal.str t) fs)) ∧
    lookupA (setAssoc ik (JVal.str t) fs) ik = some (JVal.str t) ∧
    (∀ k, ¬ k = ik → lookupA (setAssoc ik (JVal.str t) fs) k = lookupA fs k) := by
  refine ⟨?_, ?_, lookupA_setAssoc_self fs ik (JVal.str t),
    fun k hk => lookupA_setAssoc_ne fs ik (JVal.str t) k hk⟩
  · simp [getNotes, h, jsOrJ, jsTruthy]
  · simp [putNote, h, ht, jsOrJ, jsTruthy, objSet]

/-- Witness for the amended claim C2 at the concrete legacy root. -/
theorem legacy_bucket_read_flat_witness :
    legacyRoot (sprintKey "P" "S") = some (JVal.obj [("ISSUE-1", JVal.str "hello")]) ∧
    ¬ jsTrim "x" = "" ∧
    (getNotes legacyRoot "P" "S" =
        JVal.obj [("notes", JVal.obj [("ISSUE-1", JVal.str "hello")])] ∧
      putNote legacyRoot "P" "S" "ISSUE-2" (some "x") (sprintKey "P" "S") =
        some (JVal.obj (setAssoc "ISSUE-2" (JVal.str "x") [("ISSUE-1", JVal.str "hello")])) ∧
      lookupA (setAssoc "ISSUE-2" (JVal.str "x") [("ISSUE-1", JVal.str "hello")]) "ISSUE-2" =
        some (JVal.str "x") ∧
      (∀ k, ¬ k = "ISSUE-2" →
        lookupA (setAssoc "ISSUE-2" (JVal.str "x") [("ISSUE-1", JVal.str "hello")]) k =
          lookupA [("ISSUE-1", JVal.str "hello")] k)) :=
  ⟨rfl, by decide,
    legacy_bucket_read_flat legacyRoot "P" "S" [("ISSUE-1", JVal.str "hello")]
      rfl "ISSUE-2" "x" (by decide)⟩

/-! ## Claim C6 -/

/-- Claim C6: a PUT /api/notes whose text trims to the empty string
deletes the addressed issue key from the bucket, so after the write the
key is absent, and the GET /api/notes response exposes exactly that
bucket under its notes field. -/
theorem blank_note_deletes (root : Root) (pk sn ik : String) (text : Option String)
    (h : jsTrim (text.getD "") = "") :
    objLookup (jsOrJ (putNote root pk sn ik text (sprintKey pk sn))) ik = none ∧
    getNotes (putNote root pk sn ik text) pk sn =
      JVal.obj [("notes", jsOrJ (putNote root pk sn ik text (sprintKey pk sn)))] := by
  constructor
  · have hput : putNote root pk sn ik text (sprintKey pk sn) =
        some (objDelete (jsOrJ (root (sprintKey pk sn))) ik) := by
      simp [putNote, h]
    rw [hput, jsOrJ_some _ (jsTruthy_objDelete _ _ (jsTruthy_jsOrJ _))]
    exact objLookup_objDelete_self _ _
  · rfl

/-- Witness for claim C6: whitespace-only text on an issue that had a
note removes the entry. -/
theorem blank_note_deletes_witness :
    jsTrim "  " = "" ∧
    objLookup (jsOrJ (rootW (sprintKey "P" "S"))) "I1" = some (JVal.str "old") ∧
    objLookup (jsOrJ (putNote rootW "P" "S" "I1" (some "  ") (sprintKey "P" "S"))) "I1" =
      none :=
  ⟨by decide, rfl, (blank_note_deletes rootW "P" "S" "I1" (some "  ") (by decide)).1⟩

/-! ## Claim C9 -/

/-- Claim C9: a PUT /api/notes write changes at most the addressed
issue key of the addressed bucket: every other composite key maps to
the same bucket as in the loaded root, and every other issue key of the
addressed bucket keeps its value. -/
theorem putNote_frame (root : Root) (pk sn ik : String) (text : Option String) :
    (∀ k, ¬ k = sprintKey pk sn → putNote root pk sn ik text k = root k) ∧
    (∀ j, ¬ j = ik →
      objLookup (jsOrJ (putNote root pk sn ik text (sprintKey pk sn))) j =
        objLookup (jsOrJ (root (sprintKey pk sn))) j) := by
  constructor
  · intro k hk
    simp [putNote, hk]
  · intro j hj
    by_cases hb : jsTrim (text.getD "") = ""
    · have hput : putNote root pk sn ik text (sprintKey pk sn) =
          some (objDelete (jsOrJ (root (sprintKey pk sn))) ik) := by
        simp [putNote, hb]
      rw [hput, jsOrJ_some _ (jsTruthy_objDelete _ _ (jsTruthy_jsOrJ _))]
      exact objLookup_objDelete_ne _ _ _ hj
    · have hput : putNote root pk sn ik text (sprintKey pk sn) =
          some (objSet (jsOrJ (root (sprintKey pk sn))) ik (JVal.str (text.getD ""))) := by
        simp [putNote, hb]
      rw [hput, jsOrJ_some _ (jsTruthy_objSet _ _ _ (jsTruthy_jsOrJ _))]
      exact objLookup_objSet_ne _ _ _ _ hj

/-- Witness for claim C9 at a concrete root: an unrelated bucket and an
unrelated issue key of the addressed bucket are untouched. -/
theorem putNote_frame_witness :
    putNote rootW "P" "S" "I1" (some "new") "Q|||T" = rootW "Q|||T" ∧
    objLookup (jsOrJ (putNote rootW "P" "S" "I1" (some "new") (sprintKey "P" "S"))) "I2" =
      objLookup (jsOrJ (rootW (sprintKey "P" "S"))) "I2" :=
  ⟨(putNote_frame rootW "P" "S" "I1" (some "new")).1 "Q|||T" (by decide),
   (putNote_frame rootW "P" "S" "I1" (some "new")).2 "I2" (by decide)⟩

/-! ## Claim C8 -/

/-- Claim C8: a request missing a required parameter is answered with
HTTP 400 and an error body, before any upstream call (zero calls in the
search result) and before any store access (no save, root unchanged for
the PUT; no read for the GET). -/
theorem missing_params_400 (α : Type) (u : Nat → SPage α) (fuel : Nat) (root : Root)
    (jql projectKey sprintName issueKey text project sprint : Option String)
    (h1 : jsFalsyStr jql = true)
    (h2 : (jsFalsyStr projectKey || jsFalsyStr sprintName || jsFalsyStr issueKey) = true)
    (h3 : (jsFalsyStr project || jsFalsyStr sprint) = true) :
    searchEndpoint u fuel jql = some ⟨400, some "Missing jql", [], 0⟩ ∧
    putNotesEndpoint root projectKey sprintName issueKey text =
      ⟨400, some "Missing projectKey, sprintName, or issueKey", root, false⟩ ∧
    getNotesEndpoint root project sprint =
      ⟨400, some "Missing project or sprint", none, false⟩ := by
  refine ⟨?_, ?_, ?_⟩
  · simp [searchEndpoint, h1]
  · simp [putNotesEndpoint, h2]
  · simp [getNotesEndpoint, h3]

/-- Witness for claim C8: concrete requests with the required
parameters absent. -/
theorem missing_params_400_witness :
    searchEndpoint (fun _ => (⟨[], none⟩ : SPage Unit)) 0 none =
      some ⟨400, some "Missing jql", [], 0⟩ ∧
    putNotesEndpoint rootW none (some "S") (some "I1") (some "x") =
      ⟨400, some "Missing projectKey, sprintName, or issueKey", rootW, false⟩ ∧
    getNotesEndpoint rootW (some "P") (some "") =
      ⟨400, some "Missing project or sprint", none, false⟩ :=
  missing_params_400 Unit (fun _ => ⟨[], none⟩) 0 rootW none none (some "S") (some "I1")
    (some "x") (some "P") (some "") rfl rfl rfl

/-! ## Lemmas about sprint aggregation -/

theorem orO_none (a : Option Sprint) : orO a none = a := by
  cases a <;> rfl

theorem orO_assoc (a b c : Option Sprint) : orO (orO a b) c = orO a (orO b c) := by
  cases a <;> rfl

theorem findId_isSome_eq (l : List Sprint) (i : Nat) :
    (findId l i).isSome = l.any (fun t => t.id == JId.num i) := by
  induction l with
  | nil => rfl
  | cons t rest ih => by_cases h : (t.id == JId.num i) = true <;> simp [findId, h, ih]

theorem findId_append (l1 l2 : List Sprint) (i : Nat) :
    findId (l1 ++ l2) i = orO (findId l1 i) (findId l2 i) := by
  induction l1 with
  | nil => simp [findId, orO]
  | cons t rest ih =>
    by_cases h : (t.id == JId.num i) = true <;> simp [findId, h, ih, orO]

theorem findId_some_mem (l : List Sprint) (i : Nat) (x : Sprint)
    (h : findId l i = some x) : x ∈ l ∧ x.id = JId.num i := by
  induction l with
  | nil => cases h
  | cons t rest ih =>
    by_cases ht : (t.id == JId.num i) = true
    · rw [findId, if_pos ht] at h
      injection h with h2
      subst h2
      exact ⟨by simp, by simpa using ht⟩
    · rw [findId, if_neg (by simpa using ht)] at h
      obtain ⟨h1, h2⟩ := ih h
      exact ⟨List.mem_cons_of_mem t h1, h2⟩

theorem findId_addSprints (b : Board) (ss : List RawSprint) (acc : List Sprint) (i : Nat) :
    findId (addSprints b ss acc) i =
      orO (findId acc i) ((ss.find? (fun s => s.id == i)).map (mkFromRaw b)) := by
  induction ss generalizing acc with
  | nil => simp [addSprints, orO_none]
  | cons s rest ih =>
    by_cases hs : (acc.any (fun t => t.id == JId.num s.id)) = true
    · rw [show addSprints b (s :: rest) acc = addSprints b rest acc from by
        simp [addSprints, hs], ih]
      by_cases hsi : s.id = i
      · have hsome : (findId acc i).isSome = true := by
          rw [findId_isSome_eq, ← hsi]
          exact hs
        cases e2 : findId acc i with
        | none => rw [e2] at hsome; cases hsome
        | some x => simp [e2, orO]
      · rw [List.find?_cons_of_neg _ (by simpa using hsi)]
    · rw [show addSprints b (s :: rest) acc = addSprints b rest (acc ++ [mkFromRaw b s]) from by
        simp [addSprints, hs], ih, findId_append, orO_assoc]
      by_cases hsi : s.id = i
      · have hnone : findId acc i = none := by
          cases e2 : findId acc i with
          | none => rfl
          | some x =>
            exfalso
            have hx := findId_isSome_eq acc i
            rw [e2] at hx
            rw [← hsi] at hx
            exact hs (by simpa using hx.symm)
        have e4 : findId [mkFromRaw b s] i = some (mkFromRaw b s) := by
          simp [findId, mkFromRaw, hsi]
        have e5 : List.find? (fun s' => s'.id == i) (s :: rest) = some s :=
          List.find?_cons_of_pos _ (by simpa using hsi)
        rw [hnone, e4, e5]
        simp [orO]
      · have e4 : findId [mkFromRaw b s] i = none := by
          simp [findId, mkFromRaw, hsi]
        have e5 : List.find? (fun s' => s'.id == i) (s :: rest) =
            List.find? (fun s' => s'.id == i) rest :=
          List.find?_cons_of_neg _ (by simpa using hsi)
        rw [e4, e5]
        simp [orO]

theorem findId_collectSeen (ps : List (Board × List RawSprint)) (acc : List Sprint)
    (i : Nat) :
    findId (collectSeen ps acc) i =
      orO (findId acc i) ((firstOcc ps i).map (fun q => mkFromRaw q.1 q.2)) := by
  induction ps generalizing acc with
  | nil => simp [collectSeen, firstOcc, orO_none]
  | cons p rest ih =>
    rw [show collectSeen (p :: rest) acc = collectSeen rest (addSprints p.1 p.2 acc) from
      rfl, ih, findId_addSprints, orO_assoc]
    congr 1
    cases e : p.2.find? (fun s => s.id == i) with
    | some s => simp [firstOcc, e, orO]
    | none => simp [firstOcc, e, orO]

theorem nodup_ids_addSprints (b : Board) (ss : List RawSprint) (acc : List Sprint)
    (h : (acc.map Sprint.id).Nodup) : ((addSprints b ss acc).map Sprint.id).Nodup := by
  induction ss generalizing acc with
  | nil => simpa [addSprints] using h
  | cons s rest ih =>
    by_cases hs : (acc.any (fun t => t.id == JId.num s.id)) = true
    · rw [show addSprints b (s :: rest) acc = addSprints b rest acc from by
        simp [addSprints, hs]]
      exact ih acc h
    · rw [show addSprints b (s :: rest) acc = addSprints b rest (acc ++ [mkFromRaw b s]) from by
        simp [addSprints, hs]]
      apply ih
      rw [List.map_append, List.nodup_append]
      refine ⟨h, by simp, ?_⟩
      intro a ha hb
      obtain ⟨t2, ht2, rfl⟩ := List.mem_map.mp ha
      simp only [List.map_cons, List.map_nil, List.mem_singleton, mkFromRaw] at hb
      apply hs
      rw [List.any_eq_true]
      exact ⟨t2, ht2, by simp [hb]⟩

theorem nodup_ids_collectSeen (ps : List (Board × List RawSprint)) (acc : List Sprint)
    (h : (acc.map Sprint.id).Nodup) : ((collectSeen ps acc).map Sprint.id).Nodup := by
  induction ps generalizing acc with
  | nil => simpa [collectSeen] using h
  | cons p rest ih => exact ih _ (nodup_ids_addSprints p.1 p.2 acc h)

theorem countId_eq_count (l : List Sprint) (i : Nat) :
    countId l i = (l.map Sprint.id).count (JId.num i) := by
  induction l with
  | nil => rfl
  | cons t rest ih =>
    by_cases h : t.id = JId.num i
    · simp [countId, List.count_cons, h, ih]
      omega
    · simp [countId, List.count_cons, h, ih]

theorem countId_sortByName (l : List Sprint) (i : Nat) :
    countId (sortByName l) i = countId l i := by
  rw [countId_eq_count, countId_eq_count]
  exact ((List.perm_insertionSort nameLe l).map Sprint.id).count_eq _

/-! ## Claim C5 -/

/-- Claim C5: when a sprint id is discovered (possibly via several
boards), the final GET /api/sprints list has exactly one entry with
that id, and it carries the board id and board name of the first board,
in iteration order, on which the id was seen. -/
theorem sprints_dedup_first_board (ps : List (Board × List RawSprint))
    (issues : List Issue) (i : Nat) (b : Board) (s : RawSprint)
    (h : firstOcc ps i = some (b, s)) :
    sprintsEndpointList ps issues = collectSeenList ps ∧
    countId (collectSeenList ps) i = 1 ∧
    ∀ t ∈ collectSeenList ps, t.id = JId.num i →
      t = mkFromRaw b s ∧ t.boardId = some b.id ∧ t.boardName = b.name := by
  have hfind : findId (collectSeen ps []) i = some (mkFromRaw b s) := by
    rw [findId_collectSeen, h]
    rfl
  obtain ⟨hmem, hid⟩ := findId_some_mem _ _ _ hfind
  have hnodup : ((collectSeen ps []).map Sprint.id).Nodup :=
    nodup_ids_collectSeen ps [] (by simp)
  have hmem2 : mkFromRaw b s ∈ collectSeenList ps :=
    (List.mem_insertionSort nameLe).mpr hmem
  have hne : (collectSeenList ps).isEmpty = false := by
    cases e : collectSeenList ps with
    | nil => rw [e] at hmem2; cases hmem2
    | cons a l => rfl
  refine ⟨by simp [sprintsEndpointList, hne], ?_, ?_⟩
  · show countId (sortByName (collectSeen ps [])) i = 1
    rw [countId_sortByName, countId_eq_count]
    have hle := (List.nodup_iff_count_le_one.mp hnodup) (JId.num i)
    have hge : 0 < ((collectSeen ps []).map Sprint.id).count (JId.num i) := by
      rw [List.count_pos_iff]
      exact hid ▸ List.mem_map_of_mem Sprint.id hmem
    omega
  · intro t ht hti
    have htmem : t ∈ collectSeen ps [] := (List.mem_insertionSort nameLe).mp ht
    have : t = mkFromRaw b s := by
      apply List.inj_on_of_nodup_map hnodup htmem hmem
      rw [hti, hid]
    exact ⟨this, by rw [this]; rfl, by rw [this]; rfl⟩

/-- Witness for claim C5: two boards with the same sprint id; the entry
kept carries the first board. -/
theorem sprints_dedup_first_board_witness :
    firstOcc psW5 7 = some (⟨1, "B1"⟩, ⟨7, "S", "active"⟩) ∧
    (sprintsEndpointList psW5 [] = collectSeenList psW5 ∧
      countId (collectSeenList psW5) 7 = 1 ∧
      ∀ t ∈ collectSeenList psW5, t.id = JId.num 7 →
        t = mkFromRaw ⟨1, "B1"⟩ ⟨7, "S", "active"⟩ ∧
          t.boardId = some 1 ∧ t.boardName = "B1") :=
  ⟨by decide, sprints_dedup_first_board psW5 [] 7 ⟨1, "B1"⟩ ⟨7, "S", "active"⟩ (by decide)⟩

/-! ## Lemmas about the fallback derivation and the final sort -/

theorem mem_addNames (l : List String) (acc : List String) (x : String) :
    x ∈ addNames acc l ↔ x ∈ acc ∨ x ∈ l := by
  induction l generalizing acc with
  | nil => simp [addNames]
  | cons n rest ih =>
    by_cases hn : n ∈ acc
    · rw [show addNames acc (n :: rest) = addNames acc rest from by simp [addNames, hn], ih]
      constructor
      · rintro (h1 | h2)
        · exact Or.inl h1
        · exact Or.inr (List.mem_cons_of_mem n h2)
      · rintro (h1 | h2)
        · exact Or.inl h1
        · rcases List.mem_cons.mp h2 with h3 | h3
          · exact Or.inl (h3 ▸ hn)
          · exact Or.inr h3
    · rw [show addNames acc (n :: rest) = addNames (acc ++ [n]) rest from by
        simp [addNames, hn], ih]
      simp [List.mem_append, List.mem_cons, or_assoc]

theorem nodup_addNames (l : List String) (acc : List String) (h : acc.Nodup) :
    (addNames acc l).Nodup := by
  induction l generalizing acc with
  | nil => simpa [addNames] using h
  | cons n rest ih =>
    by_cases hn : n ∈ acc
    · rw [show addNames acc (n :: rest) = addNames acc rest from by simp [addNames, hn]]
      exact ih acc h
    · rw [show addNames acc (n :: rest) = addNames (acc ++ [n]) rest from by
        simp [addNames, hn]]
      apply ih
      rw [List.nodup_append]
      refine ⟨h, by simp, ?_⟩
      intro a ha hb
      rw [List.mem_singleton] at hb
      exact hn (hb ▸ ha)

theorem deriveSprints_map_name (issues : List Issue) :
    (deriveSprints issues).map Sprint.name =
      List.insertionSort (fun a b : String => strLeB a b = true)
        (dedupFirst (extractAll issues)) := by
  unfold deriveSprints
  rw [List.map_map, show (Sprint.name ∘ derivedMk) = id from funext (fun n => rfl),
    List.map_id]

theorem deriveSprints_pairwise (issues : List Issue) :
    (deriveSprints issues).Pairwise nameLe := by
  unfold deriveSprints
  apply List.Pairwise.map derivedMk (fun a b hab => hab)
  exact List.sorted_insertionSort (fun a b : String => strLeB a b = true)
    (dedupFirst (extractAll issues))

theorem collectSeenList_pairwise (ps : List (Board × List RawSprint)) :
    (collectSeenList ps).Pairwise nameLe :=
  List.sorted_insertionSort nameLe (collectSeen ps [])

/-! ## Claim C4 -/

/-- Claim C4: when board discovery yields zero sprints, the endpoint
returns the derived list: one sprint per distinct name extracted from
the issues (objects contribute their name property, legacy strings the
first name=value token), with the derived id, state unknown, null board
id, the sentinel board name, sorted by name. -/
theorem sprints_fallback_derive (ps : List (Board × List RawSprint)) (issues : List Issue)
    (h : collectSeenList ps = []) :
    sprintsEndpointList ps issues = deriveSprints issues ∧
    ((deriveSprints issues).map Sprint.name).Nodup ∧
    (∀ n, n ∈ (deriveSprints issues).map Sprint.name ↔ n ∈ extractAll issues) ∧
    (deriveSprints issues).Pairwise nameLe ∧
    ∀ t ∈ deriveSprints issues,
      t.id = JId.str ("derived:" ++ t.name) ∧ t.state = "unknown" ∧
        t.boardId = none ∧ t.boardName = "derived-from-issues" := by
  refine ⟨by simp [sprintsEndpointList, h], ?_, ?_, deriveSprints_pairwise issues, ?_⟩
  · rw [deriveSprints_map_name]
    exact ((List.perm_insertionSort _ _).nodup_iff).mpr
      (nodup_addNames (extractAll issues) [] (by simp))
  · intro n
    rw [deriveSprints_map_name]
    rw [List.mem_insertionSort]
    unfold dedupFirst
    rw [mem_addNames]
    simp
  · intro t ht
    obtain ⟨n, hn, rfl⟩ := List.mem_map.mp ht
    exact ⟨rfl, rfl, rfl, rfl⟩

/-- Witness for claim C4, the example of the spec: a legacy encoded
string carrying name=Sprint 12 and an object named Sprint 7 derive
exactly the two sprints, in sorted order. -/
theorem sprints_fallback_derive_witness :
    collectSeenList [] = [] ∧
    sprintsEndpointList [] issuesW = deriveSprints issuesW ∧
    ((deriveSprints issuesW).map Sprint.name).Nodup ∧
    deriveSprints issuesW = [derivedMk "Sprint 12", derivedMk "Sprint 7"] :=
  ⟨rfl, (sprints_fallback_derive [] issuesW rfl).1,
    (sprints_fallback_derive [] issuesW rfl).2.1, rfl⟩

/-! ## Claim C1 -/

/-- Claim C1 counterexample: the final list is not ordered by the
claimed state ranks: with a closed sprint named A and an active sprint
named B on one board, the endpoint returns the closed sprint first
(name order), although the claim puts every active sprint before every
closed one. -/
theorem sprints_state_rank_counterexample :
    sprintsEndpointList cexBoardsC1 [] =
      [⟨JId.num 10, "A", "closed", some 1, "B1"⟩,
       ⟨JId.num 11, "B", "active", some 1, "B1"⟩] ∧
    pairwiseB specLeB (sprintsEndpointList cexBoardsC1 []) = false := by
  constructor
  · rfl
  · rfl

/-- Claim C1 (amended): the final list of GET /api/sprints is sorted by
name only (ascending), on both the board path and the fallback path;
the sprint state plays no role in the ordering. -/
theorem sprints_sorted_by_name_only (ps : List (Board × List RawSprint))
    (issues : List Issue) :
    (sprintsEndpointList ps issues).Pairwise nameLe := by
  unfold sprintsEndpointList
  by_cases h : (collectSeenList ps).isEmpty = true
  · simp only [h, if_true]
    exact deriveSprints_pairwise issues
  · simp only [h, if_false]
    exact collectSeenList_pairwise ps

/-! ## Lemmas about the pagination loops -/

theorem agilePagedLoop_isSome {α : Type} (u : Nat → APage α) (hL : Nat) :
    ∀ fuel startAt out, hL < out.length + fuel → 0 < fuel →
      (agilePagedLoop u hL fuel startAt out).isSome = true := by
  intro fuel
  induction fuel with
  | zero =>
    intro startAt out h1 h2
    omega
  | succ f ih =>
    intro startAt out h1 h2
    simp only [agilePagedLoop]
    by_cases hc : ((u startAt).isLast ||
        decide (startAt + (u startAt).values.length ≥
          ((u startAt).total.getD (out ++ (u startAt).values).length)) ||
        (u startAt).values.isEmpty ||
        decide ((out ++ (u startAt).values).length ≥ hL)) = true
    · rw [if_pos hc]
      rfl
    · rw [if_neg (by simpa using hc)]
      simp only [Bool.or_eq_true, decide_eq_true_eq, not_or] at hc
      obtain ⟨⟨⟨-, -⟩, hemp⟩, hcap⟩ := hc
      have hlen : 0 < (u startAt).values.length := by
        cases e : (u startAt).values with
        | nil => rw [e] at hemp; simp at hemp
        | cons v vs => simp [e]
      have hout : (out ++ (u startAt).values).length = out.length + (u startAt).values.length :=
        List.length_append out _
      rw [hout] at hcap
      apply ih
      · rw [hout]
        omega
      · omega

/-! ## Claim C7 -/

/-- Claim C7: the generic agile page iterator breaks as soon as its
stop condition holds (last-page flag, running count at the reported
total, empty page, or the 5000-item hard cap), and with the hard cap it
terminates against every upstream behavior: fuel 5001 always suffices. -/
theorem agilePaged_terminates (α : Type) (u : Nat → APage α) :
    (∀ fuel startAt out, 0 < fuel → agileStop u 5000 startAt out = true →
      agilePagedLoop u 5000 fuel startAt out = some (out ++ (u startAt).values)) ∧
    (agilePagedLoop u 5000 5001 0 []).isSome = true := by
  constructor
  · intro fuel startAt out hf hs
    cases fuel with
    | zero => omega
    | succ f =>
      simp only [agileStop] at hs
      simp only [agilePagedLoop]
      rw [if_pos hs]
  · exact agilePagedLoop_isSome u 5000 5001 0 [] (by simp) (by omega)

/-- Witness for claim C7 at a concrete upstream whose first page sets
the last-page flag. -/
theorem agilePaged_terminates_witness :
    agileStop uW7 5000 0 [] = true ∧
    agilePagedLoop uW7 5000 1 0 [] = some ["a"] ∧
    (agilePagedLoop uW7 5000 5001 0 []).isSome = true :=
  ⟨rfl, (agilePaged_terminates String uW7).1 1 0 [] (by omega) rfl,
    (agilePaged_terminates String uW7).2⟩

/-! ## Claim C10 -/

/-- Claim C10: when the page response carries no total field, the
iterator defaults the total to the number of items accumulated so far,
the stop condition startAt plus page length at least total holds (in a
reachable state startAt equals the accumulated length), and pagination
ends right after that page, regardless of the last-page flag and of any
further upstream items. -/
theorem agilePaged_total_absent_stops (α : Type) (u : Nat → APage α)
    (fuel startAt : Nat) (out : List α) (hf : 0 < fuel) (hs : startAt = out.length)
    (ht : (u startAt).total = none) :
    agilePagedLoop u 5000 fuel startAt out = some (out ++ (u startAt).values) := by
  cases fuel with
  | zero => omega
  | succ f =>
    subst hs
    simp [agilePagedLoop, ht, List.length_append]

/-- Witness for claim C10: a totalless first page with the last-page
flag unset stops pagination although the next page would be nonempty. -/
theorem agilePaged_total_absent_stops_witness :
    (uW10 0).total = none ∧ (uW10 0).isLast = false ∧ (uW10 1).values = ["x"] ∧
    agilePagedLoop uW10 5000 1 0 [] = some ["x"] :=
  ⟨rfl, rfl, rfl, agilePaged_total_absent_stops String uW10 1 0 [] (by omega) rfl rfl⟩

/-! ## Claim C3 -/

theorem searchLoop_cexU : ∀ (fuel calls : Nat),
    searchLoop cexSearchU fuel 0 [] calls = none := by
  intro fuel
  induction fuel with
  | zero => intro calls; rfl
  | succ f ih =>
    intro calls
    simpa [searchLoop, cexSearchU, jsGeOpt] using ih (calls + 1)

/-- Claim C3 at its failing input: the POST /api/search loop does not
stop on a page with zero issues.  Against an upstream that reports a
total of five but returns an empty issues array on every page, the loop
never breaks: no amount of fuel makes it finish. -/
theorem search_loop_no_empty_page_stop :
    (cexSearchU 0).issues = [] ∧ (cexSearchU 0).total = some 5 ∧
    ¬ searchTerminates cexSearchU := by
  refine ⟨rfl, rfl, ?_⟩
  rintro ⟨fuel, hf⟩
  rw [searchLoop_cexU fuel 0] at hf
  cases hf

end PiDashboard
